import Mathlib

/-!
Verification of the vector construction and distance-based classification
engine of the genre classification notebook
(src/genre_classification_project.ipynb).

The Python code is shallowly embedded: lists of numbers model Python lists,
integer arithmetic models the integer-valued vector entries, and real numbers
model the float arithmetic of the length, normalization and cosine-distance
functions. Mutating loops are modelled by structural recursion or folds that
perform the same sequence of updates.
-/

set_option maxHeartbeats 1000000

namespace GenreClassification

/-! ## Vector Space Builder

Source (notebook cell 5):

  index_vector = \x7bword: [0]*d for word in vocabulary\x7d
  for word in vocabulary:
      random_positions = list(range(0, d))
      random.shuffle(random_positions)
      for i in random_positions[:m]:
          index_vector[word][i] = 1

The shuffled list of positions is passed in explicitly, so the definition
covers every choice the random shuffle can make.  Python list slicing
positions[:m] truncates silently when m exceeds the list length, as does
List.take, so the embedding is total exactly where the source is.
-/

/-- The index vector the source builds for one term: start from a zero list
of length d and set each of the first m shuffled positions to 1. -/
def index_vector_of (d m : ℕ) (positions : List ℕ) : List ℕ :=
  (positions.take m).foldl (fun v i => v.set i 1) (List.replicate d 0)

/-- Setting positions to 1 one by one preserves the length of the list. -/
theorem foldl_set_length (l : List ℕ) (v : List ℕ) :
    (l.foldl (fun w i => w.set i 1) v).length = v.length := by
  induction l generalizing v with
  | nil => rfl
  | cons i l ih => simp [List.foldl_cons, ih, List.length_set]

/-- Pointwise description of the position-setting loop: an index that occurs
in the worklist reads 1, every other index is untouched. -/
theorem foldl_set_getD (l : List ℕ) (v : List ℕ) (h : ∀ i ∈ l, i < v.length)
    (j : ℕ) :
    (l.foldl (fun w i => w.set i 1) v).getD j 0 =
      if j ∈ l then 1 else v.getD j 0 := by
  induction l generalizing v with
  | nil => simp
  | cons i l ih =>
    rw [List.foldl_cons]
    have hi : i < v.length := h i (List.mem_cons_self i l)
    have hrec := ih (v.set i 1)
      (by intro k hk; rw [List.length_set]; exact h k (List.mem_cons_of_mem i hk))
    rw [hrec]
    by_cases hjl : j ∈ l
    · rw [if_pos hjl, if_pos (List.mem_cons_of_mem i hjl)]
    · by_cases hij : i = j
      · subst hij
        rw [if_neg hjl, if_pos (List.mem_cons_self i l),
          List.getD_eq_getElem?_getD, List.getElem?_set_self hi]
        rfl
      · have hnotc : j ∉ i :: l := by
          intro hc
          rcases List.mem_cons.mp hc with h1 | h1
          · exact hij h1.symm
          · exact hjl h1
        rw [if_neg hjl, if_neg hnotc, List.getD_eq_getElem?_getD,
          List.getElem?_set_ne hij, ← List.getD_eq_getElem?_getD]

/-- Closed form of the built index vector: entry j is 1 exactly when j is
among the first m shuffled positions, and 0 otherwise. -/
theorem index_vector_eq_map (d m : ℕ) (positions : List ℕ)
    (hsub : ∀ i ∈ positions, i < d) :
    index_vector_of d m positions =
      (List.range d).map (fun j => if j ∈ positions.take m then 1 else 0) := by
  have hlen : (index_vector_of d m positions).length = d := by
    unfold index_vector_of
    rw [foldl_set_length, List.length_replicate]
  apply List.ext_getElem
  · rw [hlen]; simp
  · intro n h₁ h₂
    have hn : n < d := by rwa [hlen] at h₁
    have hmem : ∀ i ∈ positions.take m, i < (List.replicate d (0:ℕ)).length := by
      intro i hi
      rw [List.length_replicate]
      exact hsub i (List.mem_of_mem_take hi)
    have hl := foldl_set_getD (positions.take m) (List.replicate d 0) hmem n
    have hgl : (index_vector_of d m positions)[n] =
        (index_vector_of d m positions).getD n 0 := by
      rw [List.getD_eq_getElem?_getD, List.getElem?_eq_getElem h₁]
      rfl
    have hre : (List.replicate d (0:ℕ)).getD n 0 = 0 := by
      rw [List.getD_eq_getElem?_getD,
        List.getElem?_eq_getElem (by rw [List.length_replicate]; exact hn),
        List.getElem_replicate]
      rfl
    rw [hgl, List.getElem_map, List.getElem_range]
    unfold index_vector_of
    rw [hl, hre]

/-- C4: for every term, for any outcome of the random shuffle (a permutation
of the positions 0..D-1) and any sparsity M with M at most D, the generated
index vector has length exactly D, exactly M entries equal to 1, and every
entry equal to 0 or 1. -/
theorem C4_index_vector_shape (d m : ℕ) (positions : List ℕ)
    (hperm : positions.Perm (List.range d)) (hm : m ≤ d) :
    (index_vector_of d m positions).length = d ∧
      (index_vector_of d m positions).count 1 = m ∧
      ∀ x ∈ index_vector_of d m positions, x = 0 ∨ x = 1 := by
  have hsub : ∀ i ∈ positions, i < d := fun i hi =>
    List.mem_range.mp (hperm.mem_iff.mp hi)
  have hmap := index_vector_eq_map d m positions hsub
  have hnd : positions.Nodup := hperm.symm.nodup (List.nodup_range d)
  have htnd : (positions.take m).Nodup := (List.take_sublist m positions).nodup hnd
  have htlen : (positions.take m).length = m := by
    rw [List.length_take, hperm.length_eq, List.length_range]
    exact min_eq_left hm
  have htsub : ∀ i ∈ positions.take m, i < d := fun i hi =>
    hsub i (List.mem_of_mem_take hi)
  refine ⟨?_, ?_, ?_⟩
  · rw [hmap]; simp
  · have hfil : (List.filter (fun j => decide (j ∈ positions.take m))
        (List.range d)).Perm (positions.take m) := by
      rw [List.perm_ext_iff_of_nodup
        (List.Nodup.filter _ (List.nodup_range d)) htnd]
      intro a
      simp only [List.mem_filter, List.mem_range, decide_eq_true_eq]
      exact ⟨fun h => h.2, fun h => ⟨htsub a h, h⟩⟩
    rw [hmap, List.count_eq_countP, List.countP_map]
    have hcong : List.countP
        ((fun x => x == 1) ∘ fun j => if j ∈ positions.take m then 1 else 0)
        (List.range d) =
        List.countP (fun j => decide (j ∈ positions.take m)) (List.range d) := by
      apply List.countP_congr
      intro j _
      by_cases h : j ∈ positions.take m <;> simp [h, Function.comp]
    rw [hcong, List.countP_eq_length_filter, hfil.length_eq, htlen]
  · intro x hx
    rw [hmap] at hx
    simp only [List.mem_map, List.mem_range] at hx
    obtain ⟨j, _, hj⟩ := hx
    by_cases h : j ∈ positions.take m
    · right; simp [h] at hj; omega
    · left; simp [h] at hj; omega

/-- Concrete instance of C4: D = 4, M = 2, shuffle outcome [2,0,3,1]. -/
theorem C4_index_vector_shape_witness :
    (([2,0,3,1] : List ℕ).Perm (List.range 4) ∧ 2 ≤ 4) ∧
      ((index_vector_of 4 2 [2,0,3,1]).length = 4 ∧
        (index_vector_of 4 2 [2,0,3,1]).count 1 = 2 ∧
        ∀ x ∈ index_vector_of 4 2 [2,0,3,1], x = 0 ∨ x = 1) :=
  ⟨⟨by decide, by decide⟩, C4_index_vector_shape 4 2 [2,0,3,1] (by decide) (by decide)⟩

/-- C5, counterexample: with D = 2 and M = 5 the construction does not fail
with an out-of-range condition; it silently produces the vector [1,1], which
has only 2 ones, fewer than M = 5.  (In Python, the slice positions[:5] of a
2-element list is the whole list and every written index is in range, so no
exception can occur.) -/
theorem C5_counterexample :
    index_vector_of 2 5 [1,0] = [1,1] ∧
      (index_vector_of 2 5 [1,0]).count 1 = 2 ∧ 2 < 5 := by
  decide

/-- C5, amended: if D is smaller than M, index-vector construction does not
fail; the slice of shuffled positions truncates to all D positions and the
produced vector is all ones, hence it has D ones, fewer than M. -/
theorem C5_underfull_all_ones (d m : ℕ) (positions : List ℕ)
    (hperm : positions.Perm (List.range d)) (hlt : d < m) :
    index_vector_of d m positions = List.replicate d 1 ∧
      (index_vector_of d m positions).count 1 = d := by
  have hsub : ∀ i ∈ positions, i < d := fun i hi =>
    List.mem_range.mp (hperm.mem_iff.mp hi)
  have htake : positions.take m = positions :=
    List.take_of_length_le (by rw [hperm.length_eq, List.length_range]; omega)
  have hmap := index_vector_eq_map d m positions hsub
  rw [htake] at hmap
  have hall : (List.range d).map (fun j => if j ∈ positions then 1 else 0) =
      (List.range d).map (fun _ => (1:ℕ)) := by
    apply List.map_congr_left
    intro a ha
    have : a ∈ positions := hperm.mem_iff.mpr ha
    simp [this]
  constructor
  · rw [hmap, hall, List.map_const', List.length_range]
  · rw [hmap, hall, List.map_const', List.length_range, List.count_replicate]
    simp

/-- Concrete instance of the amended C5: D = 2, M = 5, shuffle outcome [1,0]. -/
theorem C5_underfull_all_ones_witness :
    (([1,0] : List ℕ).Perm (List.range 2) ∧ 2 < 5) ∧
      (index_vector_of 2 5 [1,0] = List.replicate 2 1 ∧
        (index_vector_of 2 5 [1,0]).count 1 = 2) :=
  ⟨⟨by decide, by decide⟩, C5_underfull_all_ones 2 5 [1,0] (by decide) (by decide)⟩

/-! ## Context Aggregator

Source (notebook cell 7):

  def add_vector(a, b):
      for i, x in enumerate(b):
          a[i] += x

  for doc in documents:
      context = [w.lower() for w in (brown.words(doc))]
      for word in context:
          add_vector(context_vector[doc], index_vector[word])

The mutating enumerate loop is embedded as a recursion over b that threads
the running index and performs the same per-index update on a.  Document
vectors start from a fresh zero list of dimension d, exactly as the
dictionary comprehension initializes them.
-/

/-- One pass of the add_vector loop: starting at index i, add the elements
of b into a at consecutive indices. -/
def add_loop : List ℤ → ℕ → List ℤ → List ℤ
  | a, _, [] => a
  | a, i, x :: xs => add_loop (a.set i (a.getD i 0 + x)) (i + 1) xs

/-- The add_vector function of the source: add b into a elementwise,
iterating over the indices of b. -/
def add_vector (a b : List ℤ) : List ℤ := add_loop a 0 b

/-- The add_vector loop preserves the length of the accumulator. -/
theorem add_loop_length (b : List ℤ) (a : List ℤ) (i : ℕ) :
    (add_loop a i b).length = a.length := by
  induction b generalizing a i with
  | nil => rfl
  | cons x xs ih => simp [add_loop, ih, List.length_set]

/-- add_vector preserves the length of its first argument. -/
theorem add_vector_length (a b : List ℤ) :
    (add_vector a b).length = a.length :=
  add_loop_length b a 0

/-- Pointwise description of the add_vector loop: indices in the written
window gain the corresponding element of b, all others are untouched. -/
theorem add_loop_getD (b : List ℤ) (a : List ℤ) (i : ℕ)
    (h : i + b.length ≤ a.length) (j : ℕ) :
    (add_loop a i b).getD j 0 =
      if i ≤ j ∧ j < i + b.length then a.getD j 0 + b.getD (j - i) 0
      else a.getD j 0 := by
  induction b generalizing a i with
  | nil =>
    simp only [add_loop, List.length_nil]
    rw [if_neg (by omega)]
  | cons x xs ih =>
    simp only [add_loop, List.length_cons]
    simp only [List.length_cons] at h
    have hi : i < a.length := by omega
    have hset : (a.set i (a.getD i 0 + x)).length = a.length :=
      List.length_set a i _
    have hrec := ih (a.set i (a.getD i 0 + x)) (i + 1) (by rw [hset]; omega)
    rw [hrec]
    by_cases hji : j = i
    · subst hji
      rw [if_neg (by omega), if_pos (by omega)]
      have hv : (a.set j (a.getD j 0 + x)).getD j 0 = a.getD j 0 + x := by
        rw [List.getD_eq_getElem?_getD, List.getElem?_set_self hi]
        rfl
      rw [hv, Nat.sub_self, List.getD_cons_zero]
    · have hne : i ≠ j := fun hc => hji hc.symm
      have hgs : (a.set i (a.getD i 0 + x)).getD j 0 = a.getD j 0 := by
        rw [List.getD_eq_getElem?_getD, List.getElem?_set_ne hne,
          ← List.getD_eq_getElem?_getD]
      by_cases hcond : i + 1 ≤ j ∧ j < i + 1 + xs.length
      · rw [if_pos hcond, if_pos (by omega), hgs]
        congr 1
        have hsucc : j - i = (j - (i + 1)) + 1 := by omega
        rw [hsucc, List.getD_cons_succ]
      · rw [if_neg hcond, if_neg (by omega), hgs]

/-- Pointwise form of add_vector on lists where b fits inside a. -/
theorem add_vector_getD (a b : List ℤ) (h : b.length ≤ a.length) (j : ℕ)
    (hj : j < b.length) :
    (add_vector a b).getD j 0 = a.getD j 0 + b.getD j 0 := by
  unfold add_vector
  rw [add_loop_getD b a 0 (by omega) j, if_pos (by omega)]
  simp

/-- The context vector the source aggregates for one document: lowercase
every token, then fold add_vector over the token sequence starting from the
zero vector of dimension d. -/
def context_vector_of (iv : String → List ℤ) (d : ℕ) (ws : List String) : List ℤ :=
  (ws.map (fun w => w.toLower)).foldl (fun cv w => add_vector cv (iv w))
    (List.replicate d 0)

/-- Folding add_vector over any token list preserves the vector length. -/
theorem agg_foldl_length (iv : String → List ℤ) (ts : List String)
    (acc : List ℤ) :
    (ts.foldl (fun cv w => add_vector cv (iv w)) acc).length = acc.length := by
  induction ts generalizing acc with
  | nil => rfl
  | cons t ts ih =>
    simp only [List.foldl_cons]
    rw [ih (add_vector acc (iv t)), add_vector_length]

/-- Folding add_vector over a token list adds, entry by entry, the sum of
the corresponding entries of the index vectors of the tokens. -/
theorem agg_foldl_getD (iv : String → List ℤ) (d : ℕ)
    (hiv : ∀ w, (iv w).length = d) (ts : List String) (acc : List ℤ)
    (hacc : acc.length = d) (j : ℕ) (hj : j < d) :
    (ts.foldl (fun cv w => add_vector cv (iv w)) acc).getD j 0 =
      acc.getD j 0 + (ts.map (fun w => (iv w).getD j 0)).sum := by
  induction ts generalizing acc with
  | nil => simp
  | cons t ts ih =>
    simp only [List.foldl_cons, List.map_cons, List.sum_cons]
    rw [ih (add_vector acc (iv t)) (by rw [add_vector_length, hacc]),
      add_vector_getD acc (iv t) (by rw [hacc, hiv]) j (by rw [hiv]; exact hj),
      add_assoc]

/-- C1: for every document, the aggregated context vector has dimension D
and each entry equals the sum, over every token occurrence in the document
token sequence, of the matching entry of the index vector of the lowercased
token.  Repeated tokens contribute once per occurrence because the sum runs
over the token list itself, so tokens [a, b, a] contribute the index vector
of a twice and that of b once. -/
theorem C1_context_vector_sum (iv : String → List ℤ) (d : ℕ)
    (hiv : ∀ w, (iv w).length = d) (ws : List String) :
    (context_vector_of iv d ws).length = d ∧
      ∀ j, j < d → (context_vector_of iv d ws).getD j 0 =
        (ws.map (fun w => (iv w.toLower).getD j 0)).sum := by
  constructor
  · unfold context_vector_of
    rw [agg_foldl_length, List.length_replicate]
  · intro j hj
    unfold context_vector_of
    rw [agg_foldl_getD iv d hiv _ _ (List.length_replicate d 0) j hj]
    have hz : (List.replicate d (0:ℤ)).getD j 0 = 0 := by
      simp [List.getD_eq_getElem?_getD, List.getElem?_replicate, hj]
    rw [hz, zero_add, List.map_map]
    rfl

/-- Concrete instance of C1: dimension 2, every term mapped to the index
vector [5, 7], token sequence [a, B, a]. -/
theorem C1_context_vector_sum_witness :
    (∀ w : String, ((fun _ => ([5,7] : List ℤ)) w).length = 2) ∧
      ((context_vector_of (fun _ => [5,7]) 2 ["a","B","a"]).length = 2 ∧
        ∀ j, j < 2 → (context_vector_of (fun _ => [5,7]) 2 ["a","B","a"]).getD j 0 =
          (["a","B","a"].map
            (fun w => (((fun _ => ([5,7] : List ℤ)) w.toLower)).getD j 0)).sum) :=
  ⟨fun _ => rfl,
    C1_context_vector_sum (fun _ => [5,7]) 2 (fun _ => rfl) ["a","B","a"]⟩

/-! ## Supervised train/test split

Source (notebook cells 14 and 16):

  test_documents = []
  for genre in train_genres:
      size = int(len(brown.fileids(categories=genre)) * 0.3)
      for file in brown.fileids(categories=genre)[:size]:
          test_documents.append(file)

  for genre in train_genres:
      size = int(len(brown.fileids(categories=genre)) * 0.7)
      context = [w.lower() for w in [w for w in brown.words(
          brown.fileids(categories=genre)[size:])]]

For the corpus sizes involved, int(n * 0.3) equals the integer floor 3n/10
and int(n * 0.7) equals 7n/10, so the cut points are embedded with natural
division.  The per-genre document list is the explicit input.
-/

/-- The per-genre test block: the first int(n * 0.3) documents. -/
def test_documents_of (files : List String) : List String :=
  files.take (3 * files.length / 10)

/-- The per-genre document block whose words train the genre context vector:
the documents from position int(n * 0.7) to the end. -/
def genre_train_files (files : List String) : List String :=
  files.drop (7 * files.length / 10)

/-- C3 evaluated on a genre with ten documents: the test block is the first
3 documents, but the training block is only the last 3 documents (positions
7, 8, 9), not the last 7 documents that would make up the last 70% of the
list.  The code therefore trains each genre vector on roughly the last 30%
of its documents, contradicting the stated split. -/
theorem C3_split_code_eval :
    test_documents_of ["f0","f1","f2","f3","f4","f5","f6","f7","f8","f9"] =
      ["f0","f1","f2"] ∧
    genre_train_files ["f0","f1","f2","f3","f4","f5","f6","f7","f8","f9"] =
      ["f7","f8","f9"] ∧
    genre_train_files ["f0","f1","f2","f3","f4","f5","f6","f7","f8","f9"] ≠
      ["f0","f1","f2","f3","f4","f5","f6","f7","f8","f9"].drop 3 := by
  refine ⟨by decide, by decide, by decide⟩

/-! ## Vector Math Utilities

Source (notebook cells 9 and 18):

  def vector_length(v):
      total = sum(x ** 2 for x in v)
      squared = math.sqrt(total)
      return squared

  def normalize(a):
      return [(x / vector_length(a)) for x in a]

  def cosine_dist(a, b):
      total = 0
      i = 0
      while i <= (len(b) - 1):
          total += a[i] * b[i]
          i += 1
      return 1 - (total / (vector_length(a) * vector_length(b)))

Float arithmetic is embedded in the reals.  Python raises ZeroDivisionError
when a float is divided by 0.0, so for the degenerate-vector claim the
division is additionally embedded with explicit error propagation; normalize
itself contains no guard and no error handling of its own.
-/

/-- Euclidean length: square root of the sum of squared components. -/
noncomputable def vector_length (v : List ℝ) : ℝ :=
  Real.sqrt ((v.map (fun x => x ^ 2)).sum)

/-- Normalization: divide every component by the vector length. -/
noncomputable def normalize (a : List ℝ) : List ℝ :=
  a.map (fun x => x / vector_length a)

/-- The two failure kinds relevant to the degenerate-vector claim: the raw
Python ZeroDivisionError, and the DegenerateVectorError the specification
asks for (which the source never raises). -/
inductive PyError where
  | zeroDivisionError : PyError
  | degenerateVectorError : PyError
deriving DecidableEq

-- Python float division: raises ZeroDivisionError when the divisor is 0.
open Classical in
noncomputable def pydiv (x y : ℝ) : Except PyError ℝ :=
  if y = 0 then Except.error PyError.zeroDivisionError else Except.ok (x / y)

/-- A list comprehension whose body may raise: the first raise aborts the
whole comprehension with that error. -/
def mapExcept (f : ℝ → Except PyError ℝ) : List ℝ → Except PyError (List ℝ)
  | [] => Except.ok []
  | x :: xs =>
    match f x with
    | Except.error e => Except.error e
    | Except.ok y =>
      match mapExcept f xs with
      | Except.error e => Except.error e
      | Except.ok ys => Except.ok (y :: ys)

/-- The normalize comprehension with Python division semantics made
explicit: each component is divided by the vector length, and a zero
divisor raises. -/
noncomputable def normalizeE (a : List ℝ) : Except PyError (List ℝ) :=
  mapExcept (fun x => pydiv x (vector_length a)) a

/-- A vector whose components are all zero has Euclidean length zero. -/
theorem vector_length_zero_of_all_zero (v : List ℝ) (hz : ∀ x ∈ v, x = 0) :
    vector_length v = 0 := by
  unfold vector_length
  have hsq : ∀ y ∈ v.map (fun x => x ^ 2), y = 0 := by
    intro y hy
    simp only [List.mem_map] at hy
    obtain ⟨x, hx, rfl⟩ := hy
    rw [hz x hx]
    ring
  rw [List.sum_eq_zero hsq, Real.sqrt_zero]

/-- Normalizing a nonempty all-zero vector stops at the first component
with the raw division-by-zero error of the float division itself. -/
theorem normalizeE_all_zero (v : List ℝ) (hne : v ≠ []) (hz : ∀ x ∈ v, x = 0) :
    normalizeE v = Except.error PyError.zeroDivisionError := by
  obtain ⟨x, xs, rfl⟩ : ∃ x xs, v = x :: xs := by
    cases v with
    | nil => exact absurd rfl hne
    | cons x xs => exact ⟨x, xs, rfl⟩
  have hlen : vector_length (x :: xs) = 0 := vector_length_zero_of_all_zero _ hz
  have hfx : pydiv x (vector_length (x :: xs)) =
      Except.error PyError.zeroDivisionError := by
    rw [hlen]
    simp [pydiv]
  unfold normalizeE
  simp only [mapExcept]
  rw [hfx]

/-- C6, counterexample: normalizing the all-zero vector of dimension 200
propagates the raw division-by-zero error of the component division; the
result is not a DegenerateVectorError surfaced by the normalize or length
code (no such handling exists in the source). -/
theorem C6_counterexample :
    normalizeE (List.replicate 200 (0:ℝ)) =
        Except.error PyError.zeroDivisionError ∧
      normalizeE (List.replicate 200 (0:ℝ)) ≠
        Except.error PyError.degenerateVectorError := by
  have h := normalizeE_all_zero (List.replicate 200 (0:ℝ)) (by simp)
    (by intro x hx; exact List.eq_of_mem_replicate hx)
  refine ⟨h, ?_⟩
  rw [h]
  intro hc
  have := Except.error.inj hc
  exact absurd this (by decide)

/-- C6, amended: normalizing a nonempty vector with zero recognized content
(all components zero) raises: the division by the zero length propagates as
the raw ZeroDivisionError of float division.  No NaN vector is returned,
and no DegenerateVectorError-style handling exists in the normalize or
length code. -/
theorem C6_zero_vector_raises (v : List ℝ) (hne : v ≠ [])
    (hz : ∀ x ∈ v, x = 0) :
    normalizeE v = Except.error PyError.zeroDivisionError :=
  normalizeE_all_zero v hne hz

/-- Concrete instance of the amended C6 at the vector [0, 0]. -/
theorem C6_zero_vector_raises_witness :
    (([(0:ℝ), 0] : List ℝ) ≠ [] ∧ ∀ x ∈ ([(0:ℝ), 0] : List ℝ), x = 0) ∧
      normalizeE [(0:ℝ), 0] = Except.error PyError.zeroDivisionError := by
  have h1 : ([(0:ℝ), 0] : List ℝ) ≠ [] := by simp
  have h2 : ∀ x ∈ ([(0:ℝ), 0] : List ℝ), x = 0 := by
    intro x hx
    rcases List.mem_cons.mp hx with h | h
    · exact h
    · rcases List.mem_cons.mp h with h | h
      · exact h
      · exact absurd h (List.not_mem_nil x)
  exact ⟨⟨h1, h2⟩, C6_zero_vector_raises _ h1 h2⟩

/-- C7: when the vector length is nonzero, the normalized vector has
Euclidean length one, and its direction is that of the input: every
component is scaled by the same positive factor (the reciprocal length). -/
theorem C7_normalize_unit (a : List ℝ) (h : vector_length a ≠ 0) :
    vector_length (normalize a) = 1 ∧
      ∃ c : ℝ, 0 < c ∧ normalize a = a.map (fun x => c * x) := by
  set S := (a.map (fun x => x ^ 2)).sum with hS
  have hS0 : 0 ≤ S := by
    apply List.sum_nonneg
    intro x hx
    simp only [List.mem_map] at hx
    obtain ⟨y, _, rfl⟩ := hx
    positivity
  have hL : vector_length a = Real.sqrt S := rfl
  have hLpos : 0 < vector_length a :=
    lt_of_le_of_ne (hL ▸ Real.sqrt_nonneg S) (Ne.symm h)
  have hSpos : 0 < S := Real.sqrt_ne_zero'.mp (hL ▸ h)
  constructor
  · have hmap : (normalize a).map (fun x => x ^ 2) =
        a.map (fun x => x ^ 2 * (vector_length a ^ 2)⁻¹) := by
      unfold normalize
      rw [List.map_map]
      apply List.map_congr_left
      intro x _
      simp [Function.comp, div_eq_mul_inv, mul_pow, inv_pow]
    show Real.sqrt (((normalize a).map (fun x => x ^ 2)).sum) = 1
    rw [hmap, List.sum_map_mul_right, ← hS]
    have hL2 : vector_length a ^ 2 = S := by rw [hL]; exact Real.sq_sqrt hS0
    rw [hL2, mul_inv_cancel₀ (ne_of_gt hSpos), Real.sqrt_one]
  · refine ⟨(vector_length a)⁻¹, inv_pos.mpr hLpos, ?_⟩
    unfold normalize
    apply List.map_congr_left
    intro x _
    rw [div_eq_mul_inv, mul_comm]

/-- Concrete instance of C7 at the vector [3, 4] (length 5). -/
theorem C7_normalize_unit_witness :
    vector_length [(3:ℝ), 4] ≠ 0 ∧
      (vector_length (normalize [(3:ℝ), 4]) = 1 ∧
        ∃ c : ℝ, 0 < c ∧
          normalize [(3:ℝ), 4] = [(3:ℝ), 4].map (fun x => c * x)) := by
  have hne : vector_length [(3:ℝ), 4] ≠ 0 := by
    unfold vector_length
    rw [Real.sqrt_ne_zero']
    simp only [List.map_cons, List.map_nil, List.sum_cons, List.sum_nil]
    norm_num
  exact ⟨hne, C7_normalize_unit _ hne⟩

/-- Cosine distance: one minus the dot product over the product of the two
vector lengths.  The dot-product loop runs over the indices of b, exactly
as the while loop of the source does. -/
noncomputable def cosine_dist (a b : List ℝ) : ℝ :=
  1 - ((List.range b.length).map (fun i => a.getD i 0 * b.getD i 0)).sum /
    (vector_length a * vector_length b)

/-- A sum over a mapped index range as a finset sum. -/
theorem sum_map_range_eq (f : ℕ → ℝ) (n : ℕ) :
    ((List.range n).map f).sum = ∑ i ∈ Finset.range n, f i := by
  induction n with
  | zero => simp
  | succ n ih =>
    rw [List.range_succ, List.map_append, List.sum_append,
      Finset.sum_range_succ, ih]
    simp

/-- A mapped list sum as a finset sum over the index range of the list. -/
theorem sum_map_eq_sum_range (v : List ℝ) (f : ℝ → ℝ) :
    (v.map f).sum = ∑ i ∈ Finset.range v.length, f (v.getD i 0) := by
  induction v with
  | nil => simp
  | cons x xs ih =>
    rw [List.map_cons, List.sum_cons, List.length_cons, Finset.sum_range_succ',
      List.getD_cons_zero]
    rw [show (∑ i ∈ Finset.range xs.length, f ((x :: xs).getD (i + 1) 0)) =
        ∑ i ∈ Finset.range xs.length, f (xs.getD i 0) from
      Finset.sum_congr rfl (fun i _ => by rw [List.getD_cons_succ])]
    rw [ih, add_comm]

/-- Reading a list of non-negative numbers with default 0 is non-negative. -/
theorem getD_nonneg (l : List ℝ) (h : ∀ x ∈ l, 0 ≤ x) (i : ℕ) :
    0 ≤ l.getD i 0 := by
  by_cases hi : i < l.length
  · rw [List.getD_eq_getElem?_getD, List.getElem?_eq_getElem hi]
    exact h _ (List.getElem_mem hi)
  · rw [List.getD_eq_default _ _ (by omega)]

/-- C8: on same-dimension vectors with non-negative components (as every
aggregated context vector has) and nonzero lengths, the cosine distance
lies in the closed interval from 0 to 1. -/
theorem C8_cosine_dist_range (a b : List ℝ) (hlen : a.length = b.length)
    (ha : ∀ x ∈ a, 0 ≤ x) (hb : ∀ x ∈ b, 0 ≤ x)
    (hna : vector_length a ≠ 0) (hnb : vector_length b ≠ 0) :
    0 ≤ cosine_dist a b ∧ cosine_dist a b ≤ 1 := by
  have hLa : 0 < vector_length a :=
    lt_of_le_of_ne (Real.sqrt_nonneg _) (Ne.symm hna)
  have hLb : 0 < vector_length b :=
    lt_of_le_of_ne (Real.sqrt_nonneg _) (Ne.symm hnb)
  have hdot : ((List.range b.length).map
      (fun i => a.getD i 0 * b.getD i 0)).sum =
      ∑ i ∈ Finset.range b.length, a.getD i 0 * b.getD i 0 :=
    sum_map_range_eq _ _
  have hdot0 : 0 ≤ ∑ i ∈ Finset.range b.length, a.getD i 0 * b.getD i 0 :=
    Finset.sum_nonneg fun i _ =>
      mul_nonneg (getD_nonneg a ha i) (getD_nonneg b hb i)
  have hCS : ∑ i ∈ Finset.range b.length, a.getD i 0 * b.getD i 0 ≤
      vector_length a * vector_length b := by
    have hcs := Real.sum_mul_le_sqrt_mul_sqrt (Finset.range b.length)
      (fun i => a.getD i 0) (fun i => b.getD i 0)
    have hSa : (a.map (fun x => x ^ 2)).sum =
        ∑ i ∈ Finset.range b.length, (a.getD i 0) ^ 2 := by
      rw [sum_map_eq_sum_range, hlen]
    have hSb : (b.map (fun x => x ^ 2)).sum =
        ∑ i ∈ Finset.range b.length, (b.getD i 0) ^ 2 :=
      sum_map_eq_sum_range b _
    show _ ≤ Real.sqrt ((a.map (fun x => x ^ 2)).sum) *
      Real.sqrt ((b.map (fun x => x ^ 2)).sum)
    rw [hSa, hSb]
    exact hcs
  have hq0 : 0 ≤ ((List.range b.length).map
      (fun i => a.getD i 0 * b.getD i 0)).sum /
      (vector_length a * vector_length b) := by
    rw [hdot]
    exact div_nonneg hdot0 (le_of_lt (mul_pos hLa hLb))
  have hq1 : ((List.range b.length).map
      (fun i => a.getD i 0 * b.getD i 0)).sum /
      (vector_length a * vector_length b) ≤ 1 := by
    rw [hdot]
    exact (div_le_one (mul_pos hLa hLb)).mpr hCS
  unfold cosine_dist
  constructor
  · linarith
  · linarith

/-- Concrete instance of C8 at the vectors [1, 0] and [0, 1]. -/
theorem C8_cosine_dist_range_witness :
    (([(1:ℝ), 0] : List ℝ).length = ([(0:ℝ), 1] : List ℝ).length ∧
        (∀ x ∈ ([(1:ℝ), 0] : List ℝ), 0 ≤ x) ∧
        (∀ x ∈ ([(0:ℝ), 1] : List ℝ), 0 ≤ x) ∧
        vector_length [(1:ℝ), 0] ≠ 0 ∧ vector_length [(0:ℝ), 1] ≠ 0) ∧
      (0 ≤ cosine_dist [(1:ℝ), 0] [(0:ℝ), 1] ∧
        cosine_dist [(1:ℝ), 0] [(0:ℝ), 1] ≤ 1) := by
  have h1 : vector_length [(1:ℝ), 0] ≠ 0 := by
    unfold vector_length
    rw [Real.sqrt_ne_zero']
    simp only [List.map_cons, List.map_nil, List.sum_cons, List.sum_nil]
    norm_num
  have h2 : vector_length [(0:ℝ), 1] ≠ 0 := by
    unfold vector_length
    rw [Real.sqrt_ne_zero']
    simp only [List.map_cons, List.map_nil, List.sum_cons, List.sum_nil]
    norm_num
  have ha : ∀ x ∈ ([(1:ℝ), 0] : List ℝ), 0 ≤ x := by
    intro x hx
    rcases List.mem_cons.mp hx with h | h
    · rw [h]; norm_num
    · rcases List.mem_cons.mp h with h | h
      · rw [h]
      · exact absurd h (List.not_mem_nil x)
  have hb : ∀ x ∈ ([(0:ℝ), 1] : List ℝ), 0 ≤ x := by
    intro x hx
    rcases List.mem_cons.mp hx with h | h
    · rw [h]
    · rcases List.mem_cons.mp h with h | h
      · rw [h]; norm_num
      · exact absurd h (List.not_mem_nil x)
  exact ⟨⟨rfl, ha, hb, h1, h2⟩,
    C8_cosine_dist_range _ _ rfl ha hb h1 h2⟩

/-- C9: on same-dimension vectors with nonzero lengths, cosine distance is
symmetric in its two arguments. -/
theorem C9_cosine_dist_symm (a b : List ℝ) (hlen : a.length = b.length)
    (hna : vector_length a ≠ 0) (hnb : vector_length b ≠ 0) :
    cosine_dist a b = cosine_dist b a := by
  unfold cosine_dist
  rw [hlen]
  have h1 : (List.range b.length).map (fun i => a.getD i 0 * b.getD i 0) =
      (List.range b.length).map (fun i => b.getD i 0 * a.getD i 0) :=
    List.map_congr_left fun i _ => mul_comm _ _
  rw [h1, mul_comm (vector_length a) (vector_length b)]

/-- Concrete instance of C9 at the vectors [2, 0] and [0, 2]. -/
theorem C9_cosine_dist_symm_witness :
    (([(2:ℝ), 0] : List ℝ).length = ([(0:ℝ), 2] : List ℝ).length ∧
        vector_length [(2:ℝ), 0] ≠ 0 ∧ vector_length [(0:ℝ), 2] ≠ 0) ∧
      cosine_dist [(2:ℝ), 0] [(0:ℝ), 2] = cosine_dist [(0:ℝ), 2] [(2:ℝ), 0] := by
  have h1 : vector_length [(2:ℝ), 0] ≠ 0 := by
    unfold vector_length
    rw [Real.sqrt_ne_zero']
    simp only [List.map_cons, List.map_nil, List.sum_cons, List.sum_nil]
    norm_num
  have h2 : vector_length [(0:ℝ), 2] ≠ 0 := by
    unfold vector_length
    rw [Real.sqrt_ne_zero']
    simp only [List.map_cons, List.map_nil, List.sum_cons, List.sum_nil]
    norm_num
  exact ⟨⟨rfl, h1, h2⟩, C9_cosine_dist_symm _ _ rfl h1 h2⟩

/-! ## Nearest-Centroid Classifier

Source (notebook cell 20):

  def pairwise_distance(docs, genres):
      print_pairs = []
      min_pairs = []
      correct = 0
      incorrect = 0
      for doc in docs:
          for genre in genres:
              print_pairs.append((doc, genre, cosine_dist(
                                  normalize(context_vector_document[doc]),
                                  normalize(context_vector_genre[genre]))))
      for doc in docs:
          relevant = [pair for pair in print_pairs if pair[0] == doc]
          min_distance = min(relevant, key=lambda d: d[2])
          min_pairs.append(min_distance)
          if min_distance[1] == brown.categories(doc)[0]:
              correct += 1
          else:
              incorrect += 1
      ...
      print("Correctly classified documents:", correct,
            "(" + str(float(correct) / len(test_documents) * 100) + "%)")

The context-vector dictionaries and the gold labels are external inputs of
the function, so they are parameters of the embedding.  Python min returns
the first element whose key is minimal: it replaces the running best only
on a strictly smaller key.  min of an empty sequence raises ValueError,
embedded as the none case of an Option.
-/

/-- The distance attached to one document-genre pair by the source. -/
noncomputable def pair_dist (cvd cvg : String → List ℝ) (doc genre : String) : ℝ :=
  cosine_dist (normalize (cvd doc)) (normalize (cvg genre))

/-- The print_pairs list of the source: every (document, genre, distance)
triple, document-major, genres in enumeration order. -/
noncomputable def print_pairs (cvd cvg : String → List ℝ)
    (docs genres : List String) : List (String × String × ℝ) :=
  docs.flatMap (fun doc =>
    genres.map (fun genre => (doc, genre, pair_dist cvd cvg doc genre)))

/-- Python min with a key function over a nonempty list given as head and
tail: the running best is replaced only when a strictly smaller key
appears, so on ties the earliest element wins. -/
noncomputable def py_min {α : Type} (f : α → ℝ) (x : α) (xs : List α) : α :=
  xs.foldl (fun b y => if f y < f b then y else b) x

/-- Python min over a possibly empty list: min of an empty sequence raises
(none); otherwise the fold starts from the head. -/
noncomputable def py_min_list {α : Type} (f : α → ℝ) : List α → Option α
  | [] => none
  | x :: xs => some (py_min f x xs)

/-- The per-document step of the second loop: filter the relevant pairs of
one document out of print_pairs and take the Python min by distance. -/
noncomputable def doc_min (cvd cvg : String → List ℝ)
    (docs genres : List String) (doc : String) :
    Option (String × String × ℝ) :=
  py_min_list (fun pr => pr.2.2)
    ((print_pairs cvd cvg docs genres).filter (fun pr => pr.1 == doc))

/-- The min_pairs list of the source: the minimal pair of every document of
docs in order, none when some document has no pairs at all. -/
noncomputable def min_pairs (cvd cvg : String → List ℝ)
    (docs genres : List String) : Option (List (String × String × ℝ)) :=
  docs.mapM (doc_min cvd cvg docs genres)

/-- The percentage printed by pairwise_distance: one correctness flag per
document of docs (1 when the predicted genre equals the gold label), and
the flag total divided by the length of the test_documents list, times
100. -/
noncomputable def pairwise_report (cvd cvg : String → List ℝ)
    (gold : String → String) (test_documents docs genres : List String) :
    Option ℝ :=
  (docs.mapM (fun doc => (doc_min cvd cvg docs genres doc).map
      (fun md => if md.2.1 == gold doc then (1:ℕ) else 0))).map
    (fun flags => (flags.sum : ℝ) / (test_documents.length : ℝ) * 100)

/-- For a document occurring in a duplicate-free docs list, the relevant
pairs filtered out of print_pairs are exactly the pairs of that document,
genres in enumeration order. -/
theorem relevant_filter_eq (cvd cvg : String → List ℝ) (genres : List String)
    (doc : String) :
    ∀ docs : List String, docs.Nodup → doc ∈ docs →
      (print_pairs cvd cvg docs genres).filter (fun pr => pr.1 == doc) =
        genres.map (fun genre => (doc, genre, pair_dist cvd cvg doc genre)) := by
  intro docs
  induction docs with
  | nil => intro _ hdoc; exact absurd hdoc (List.not_mem_nil doc)
  | cons d ds ih =>
    intro hnd hdoc
    have hnd2 := List.nodup_cons.mp hnd
    unfold print_pairs
    rw [List.flatMap_cons, List.filter_append]
    rcases List.mem_cons.mp hdoc with h | h
    · subst h
      have hfirst : (genres.map
          (fun genre => (doc, genre, pair_dist cvd cvg doc genre))).filter
            (fun pr => pr.1 == doc) =
          genres.map (fun genre => (doc, genre, pair_dist cvd cvg doc genre)) := by
        apply List.filter_eq_self.mpr
        intro pr hpr
        simp only [List.mem_map] at hpr
        obtain ⟨g, _, rfl⟩ := hpr
        exact beq_self_eq_true doc
      have hrest : (ds.flatMap (fun dd =>
          genres.map (fun genre => (dd, genre, pair_dist cvd cvg dd genre)))).filter
            (fun pr => pr.1 == doc) = [] := by
        apply List.filter_eq_nil_iff.mpr
        intro pr hpr
        simp only [List.mem_flatMap, List.mem_map] at hpr
        obtain ⟨dd, hdd, g, _, rfl⟩ := hpr
        simp only [beq_iff_eq]
        rintro rfl
        exact hnd2.1 hdd
      rw [hfirst, hrest, List.append_nil]
    · have hd_ne : d ≠ doc := by
        rintro rfl
        exact hnd2.1 h
      have hfirst : (genres.map
          (fun genre => (d, genre, pair_dist cvd cvg d genre))).filter
            (fun pr => pr.1 == doc) = [] := by
        apply List.filter_eq_nil_iff.mpr
        intro pr hpr
        simp only [List.mem_map] at hpr
        obtain ⟨g, _, rfl⟩ := hpr
        simp only [beq_iff_eq]
        exact hd_ne
      rw [hfirst, List.nil_append]
      have := ih hnd2.2 h
      unfold print_pairs at this
      exact this

/-- Python min with a key returns the first minimum of the nonempty list:
it is an element, its key is minimal, and every strictly earlier element
has a strictly larger key. -/
theorem py_min_first_argmin {α : Type} (f : α → ℝ) (xs : List α) : ∀ x : α,
    ∃ k : ℕ, ∃ hk : k < (x :: xs).length,
      py_min f x xs = (x :: xs).get ⟨k, hk⟩ ∧
      (∀ y ∈ x :: xs, f (py_min f x xs) ≤ f y) ∧
      (∀ y ∈ (x :: xs).take k, f (py_min f x xs) < f y) := by
  induction xs with
  | nil =>
    intro x
    refine ⟨0, by simp, rfl, ?_, by simp⟩
    intro y hy
    rcases List.mem_cons.mp hy with h | h
    · rw [h]
      exact le_refl (f x)
    · exact absurd h (List.not_mem_nil y)
  | cons y ys ih =>
    intro x
    have hstep : py_min f x (y :: ys) = py_min f (if f y < f x then y else x) ys := by
      unfold py_min
      rw [List.foldl_cons]
    by_cases hc : f y < f x
    · rw [if_pos hc] at hstep
      obtain ⟨k, hk, heq, hmin, hlt⟩ := ih y
      have hk2 : k + 1 < (x :: y :: ys).length := by
        simp only [List.length_cons] at hk ⊢
        omega
      refine ⟨k + 1, hk2, ?_, ?_, ?_⟩
      · rw [hstep, heq]
        rfl
      · intro z hz
        rw [hstep]
        rcases List.mem_cons.mp hz with h | h
        · rw [h]
          have h1 : f (py_min f y ys) ≤ f y := hmin y (List.mem_cons_self y ys)
          linarith
        · exact hmin z h
      · intro z hz
        rw [hstep]
        rw [List.take_succ_cons] at hz
        rcases List.mem_cons.mp hz with h | h
        · rw [h]
          have h1 : f (py_min f y ys) ≤ f y := hmin y (List.mem_cons_self y ys)
          linarith
        · exact hlt z h
    · rw [if_neg hc] at hstep
      push_neg at hc
      obtain ⟨k, hk, heq, hmin, hlt⟩ := ih x
      cases k with
      | zero =>
        refine ⟨0, by simp, ?_, ?_, by simp⟩
        · rw [hstep, heq]
          rfl
        · intro z hz
          rw [hstep]
          rcases List.mem_cons.mp hz with h | h
          · rw [h]
            exact hmin x (List.mem_cons_self x ys)
          · rcases List.mem_cons.mp h with h2 | h2
            · rw [h2]
              have h1 : f (py_min f x ys) ≤ f x := hmin x (List.mem_cons_self x ys)
              linarith
            · exact hmin z (List.mem_cons_of_mem x h2)
      | succ j =>
        have hys : j < ys.length := by
          simp only [List.length_cons] at hk
          omega
        have hk2 : j + 2 < (x :: y :: ys).length := by
          simp only [List.length_cons]
          omega
        refine ⟨j + 2, hk2, ?_, ?_, ?_⟩
        · rw [hstep, heq]
          rfl
        · intro z hz
          rw [hstep]
          rcases List.mem_cons.mp hz with h | h
          · rw [h]
            exact hmin x (List.mem_cons_self x ys)
          · rcases List.mem_cons.mp h with h2 | h2
            · rw [h2]
              have h1 : f (py_min f x ys) ≤ f x := hmin x (List.mem_cons_self x ys)
              linarith
            · exact hmin z (List.mem_cons_of_mem x h2)
        · intro z hz
          rw [hstep]
          rw [List.take_succ_cons, List.take_succ_cons] at hz
          have hxin : x ∈ (x :: ys).take (j + 1) := by
            rw [List.take_succ_cons]
            exact List.mem_cons_self x (ys.take j)
          rcases List.mem_cons.mp hz with h | h
          · rw [h]
            exact hlt x hxin
          · rcases List.mem_cons.mp h with h2 | h2
            · rw [h2]
              have hltx : f (py_min f x ys) < f x := hlt x hxin
              linarith
            · refine hlt z ?_
              rw [List.take_succ_cons]
              exact List.mem_cons_of_mem x h2

/-- C2: for every document of a duplicate-free test set and a nonempty
genre list, the classifier output for that document is the pair built from
the genre of minimal cosine distance between the normalized document vector
and the normalized genre vectors; on ties the genre that comes first in
enumeration order wins (every strictly earlier genre has strictly larger
distance). -/
theorem C2_nearest_centroid_first_argmin (cvd cvg : String → List ℝ)
    (docs genres : List String) (hnd : docs.Nodup) (doc : String)
    (hdoc : doc ∈ docs) (g0 : String) (gs : List String)
    (hg : genres = g0 :: gs) :
    ∃ k : ℕ, ∃ hk : k < genres.length,
      doc_min cvd cvg docs genres doc =
        some (doc, genres.get ⟨k, hk⟩,
          pair_dist cvd cvg doc (genres.get ⟨k, hk⟩)) ∧
      (∀ g ∈ genres,
        pair_dist cvd cvg doc (genres.get ⟨k, hk⟩) ≤
          pair_dist cvd cvg doc g) ∧
      (∀ g ∈ genres.take k,
        pair_dist cvd cvg doc (genres.get ⟨k, hk⟩) <
          pair_dist cvd cvg doc g) := by
  subst hg
  have hrel := relevant_filter_eq cvd cvg (g0 :: gs) doc docs hnd hdoc
  obtain ⟨k, hk, heq, hmin, hlt⟩ := py_min_first_argmin (fun pr => pr.2.2)
    (gs.map (fun genre => (doc, genre, pair_dist cvd cvg doc genre)))
    (doc, g0, pair_dist cvd cvg doc g0)
  have hk' : k < (g0 :: gs).length := by
    simp only [List.length_cons, List.length_map] at hk ⊢
    exact hk
  have hget : ((doc, g0, pair_dist cvd cvg doc g0) ::
      gs.map (fun genre => (doc, genre, pair_dist cvd cvg doc genre))).get ⟨k, hk⟩ =
      (doc, (g0 :: gs).get ⟨k, hk'⟩,
        pair_dist cvd cvg doc ((g0 :: gs).get ⟨k, hk'⟩)) := by
    show ((g0 :: gs).map
        (fun genre => (doc, genre, pair_dist cvd cvg doc genre))).get ⟨k, hk⟩ = _
    rw [List.get_map]
  refine ⟨k, hk', ?_, ?_, ?_⟩
  · unfold doc_min
    rw [hrel]
    show some (py_min (fun pr => pr.2.2) (doc, g0, pair_dist cvd cvg doc g0)
        (gs.map (fun genre => (doc, genre, pair_dist cvd cvg doc genre)))) =
      some (doc, (g0 :: gs).get ⟨k, hk'⟩,
        pair_dist cvd cvg doc ((g0 :: gs).get ⟨k, hk'⟩))
    rw [heq, hget]
  · intro g hgmem
    have hmem2 : (doc, g, pair_dist cvd cvg doc g) ∈
        (g0 :: gs).map (fun genre => (doc, genre, pair_dist cvd cvg doc genre)) :=
      List.mem_map_of_mem _ hgmem
    have h2 := hmin _ hmem2
    rw [heq, hget] at h2
    exact h2
  · intro g hgmem
    have hmem2 : (doc, g, pair_dist cvd cvg doc g) ∈
        ((g0 :: gs).map
          (fun genre => (doc, genre, pair_dist cvd cvg doc genre))).take k := by
      rw [← List.map_take]
      exact List.mem_map_of_mem _ hgmem
    have h2 := hlt _ hmem2
    rw [heq, hget] at h2
    exact h2

/-- Concrete instance of C2: one document, two genres, constant context
vectors. -/
theorem C2_nearest_centroid_first_argmin_witness :
    ((["d1"] : List String).Nodup ∧ "d1" ∈ (["d1"] : List String) ∧
        (["g1", "g2"] : List String) = "g1" :: ["g2"]) ∧
      ∃ k : ℕ, ∃ hk : k < (["g1", "g2"] : List String).length,
        doc_min (fun _ => [(1:ℝ)]) (fun _ => [(1:ℝ)]) ["d1"] ["g1", "g2"] "d1" =
          some ("d1", (["g1", "g2"] : List String).get ⟨k, hk⟩,
            pair_dist (fun _ => [(1:ℝ)]) (fun _ => [(1:ℝ)]) "d1"
              ((["g1", "g2"] : List String).get ⟨k, hk⟩)) ∧
        (∀ g ∈ (["g1", "g2"] : List String),
          pair_dist (fun _ => [(1:ℝ)]) (fun _ => [(1:ℝ)]) "d1"
              ((["g1", "g2"] : List String).get ⟨k, hk⟩) ≤
            pair_dist (fun _ => [(1:ℝ)]) (fun _ => [(1:ℝ)]) "d1" g) ∧
        (∀ g ∈ (["g1", "g2"] : List String).take k,
          pair_dist (fun _ => [(1:ℝ)]) (fun _ => [(1:ℝ)]) "d1"
              ((["g1", "g2"] : List String).get ⟨k, hk⟩) <
            pair_dist (fun _ => [(1:ℝ)]) (fun _ => [(1:ℝ)]) "d1" g) :=
  ⟨⟨by decide, by decide, rfl⟩,
    C2_nearest_centroid_first_argmin (fun _ => [(1:ℝ)]) (fun _ => [(1:ℝ)])
      ["d1"] ["g1", "g2"] (by decide) "d1" (by decide) "g1" ["g2"] rfl⟩

/-- C10: the percentage pairwise_distance reports divides the number of
correctly classified documents of docs by the length of the global
test_documents list, not by the length of the docs parameter; it equals
the accuracy over docs when docs and test_documents have the same length,
and (for a nonzero correct count and nonempty lists) only then. -/
theorem C10_accuracy_denominator (cvd cvg : String → List ℝ)
    (gold : String → String) (test_documents docs genres : List String)
    (flags : List ℕ)
    (hflags : docs.mapM (fun doc => (doc_min cvd cvg docs genres doc).map
        (fun md => if md.2.1 == gold doc then (1:ℕ) else 0)) = some flags) :
    pairwise_report cvd cvg gold test_documents docs genres =
        some ((flags.sum : ℝ) / (test_documents.length : ℝ) * 100) ∧
      (docs.length = test_documents.length →
        pairwise_report cvd cvg gold test_documents docs genres =
          some ((flags.sum : ℝ) / (docs.length : ℝ) * 100)) ∧
      (flags.sum ≠ 0 → test_documents.length ≠ 0 → docs.length ≠ 0 →
        ((flags.sum : ℝ) / (test_documents.length : ℝ) * 100 =
            (flags.sum : ℝ) / (docs.length : ℝ) * 100 ↔
          test_documents.length = docs.length)) := by
  refine ⟨?_, ?_, ?_⟩
  · unfold pairwise_report
    rw [hflags]
    rfl
  · intro hlen
    unfold pairwise_report
    rw [hflags, hlen]
    rfl
  · intro hc ht hd
    have hc' : ((flags.sum : ℕ) : ℝ) ≠ 0 := Nat.cast_ne_zero.mpr hc
    constructor
    · intro heq
      have h1 : (flags.sum : ℝ) / (test_documents.length : ℝ) =
          (flags.sum : ℝ) / (docs.length : ℝ) :=
        mul_right_cancel₀ (by norm_num) heq
      rw [div_eq_mul_inv, div_eq_mul_inv] at h1
      have h2 : ((test_documents.length : ℝ))⁻¹ = ((docs.length : ℝ))⁻¹ :=
        mul_left_cancel₀ hc' h1
      have h3 : (test_documents.length : ℝ) = (docs.length : ℝ) :=
        inv_injective h2
      exact_mod_cast h3
    · intro heq
      rw [heq]

/-- Concrete instance of C10: one test document, one document to classify,
one genre, every prediction correct, so the report is 100 percent. -/
theorem C10_accuracy_denominator_witness :
    pairwise_report (fun _ => [(1:ℝ)]) (fun _ => [(1:ℝ)]) (fun _ => "g")
      ["t"] ["d"] ["g"] = some 100 := by
  have hflags : (["d"] : List String).mapM (fun doc =>
      (doc_min (fun _ => [(1:ℝ)]) (fun _ => [(1:ℝ)]) ["d"] ["g"] doc).map
        (fun md => if md.2.1 == (fun _ : String => "g") doc then (1:ℕ) else 0)) =
      some [1] := rfl
  have h := (C10_accuracy_denominator (fun _ => [(1:ℝ)]) (fun _ => [(1:ℝ)])
    (fun _ => "g") ["t"] ["d"] ["g"] [1] hflags).1
  rw [h]
  norm_num

end GenreClassification
